import Mathlib

/-
Verification of the core of the `binsize` tool: the row data model and its
identity, row aggregation, handler dispatch, the classification size split,
the source-definition cache, map-file reconciliation, and the micropython and
Rust symbol-name decoders.

Python strings stored on rows are modelled as Lean `String`; the string
manipulation done by the symbol decoders is modelled on `List Char`
(`String.data`).  Python `int` is modelled as `Int` (sizes can go negative via
the map-file reconciler); `number_of_symbols` is a row count set from `len`
and is modelled as `Nat`.  Filesystem accesses (existence checks, file
hashing, parsed module syntax trees) are external interfaces and appear as
explicit function parameters.
-/

namespace Binsize

/-- `DataRow` from `src/binsize/lib/api.py`: one unit of attributed size.
Field order and defaults follow the dataclass. -/
structure DataRow where
  symbol_name : String
  «section» : String
  size : Int
  language : String := ""
  func_name : String := ""
  module_name : String := ""
  logic_size : Int := 0
  data_size : Int := 0
  build_definition : String := ""
  number_of_symbols : Nat := 0
  source_definition : String := ""
deriving DecidableEq

attribute [ext] DataRow

/-- `DataRow.id` (api.py): `f"{self.section}_{_name_id()}"`, where the name id
is module and function joined by `::` when both are non-empty, else whichever
of module / function is non-empty, else the raw symbol name.  Python string
truthiness is non-emptiness. -/
def DataRow.id (r : DataRow) : String :=
  let nameId : String :=
    if r.module_name ≠ "" ∧ r.func_name ≠ "" then r.module_name ++ "::" ++ r.func_name
    else if r.module_name ≠ "" then r.module_name
    else if r.func_name ≠ "" then r.func_name
    else r.symbol_name
  r.«section» ++ "_" ++ nameId

/-- One step of the `defaultdict(list)` grouping loop of `aggregate_rows`
(`binsize/lib/binary_size.py`): append the row to the group of its id,
creating the group at the end on first occurrence (Python dicts iterate in
insertion order). -/
def insertRow (acc : List (String × List DataRow)) (r : DataRow) :
    List (String × List DataRow) :=
  if acc.any (fun p => p.1 = r.id) then
    acc.map (fun p => if p.1 = r.id then (p.1, p.2 ++ [r]) else p)
  else
    acc ++ [(r.id, [r])]

/-- The row emitted for one group of alike rows in `aggregate_rows`:
`new_row = deepcopy(alike_rows[0])`, then the three size fields are summed
over the group and `number_of_symbols` is set to the group's cardinality.
Groups produced by the grouping loop are never empty; the `[]` case returns a
row of defaults. -/
def mkNewRow : List DataRow → DataRow
  | [] => { symbol_name := "", «section» := "", size := 0 }
  | r :: rs =>
    { r with
      size := ((r :: rs).map (fun x => x.size)).sum
      logic_size := ((r :: rs).map (fun x => x.logic_size)).sum
      data_size := ((r :: rs).map (fun x => x.data_size)).sum
      number_of_symbols := (r :: rs).length }

/-- `aggregate_rows` (binary_size.py): group the rows by `DataRow.id()` and
emit one merged row per group. -/
def aggregate_rows (row_data : List DataRow) : List DataRow :=
  (row_data.foldl insertRow []).map (fun p => mkNewRow p.2)

/-- `MPY_PREFIXES` from `row_handler_common.py`. -/
def MPY_PREFIXES : List String :=
  ["fun_data_", "const_table_data_", "const_obj_", "raw_code_"]

/-- `RUST_PREFIXES` from `row_handler_common.py`. -/
def RUST_PREFIXES : List String :=
  ["trezor_lib", "compiler_builtins", "core::", "_$LT$", "heapless::",
   "cstr_core::", "_ZN", "unlikely._ZN"]

/-- `INVALID_FILE_PREFIX` from `row_handler_common.py`. -/
def INVALID_FILE_PREFIX : String := "--invalid_file--"

/-- Which of the three row handlers the factory picks. -/
inductive HandlerKind where
  | rust
  | mpy
  | c
deriving DecidableEq

/-- Python `s.startswith(p)`, as a character-list prefix test. -/
def pyStartsWith (s p : String) : Bool := p.data.isPrefixOf s.data

/-- Python `s.endswith(p)`, as a character-list suffix test. -/
def pyEndsWith (s p : String) : Bool := p.data.isSuffixOf s.data

/-- Python `str.startswith(tuple_of_prefixes)`. -/
def startsWithAny (ps : List String) (s : String) : Bool :=
  ps.any (fun p => pyStartsWith s p)

/-- `RowHandlerFactory.__call__` (`binsize/lib/data_handler.py`): Rust when the
symbol name starts with a Rust prefix or the build definition starts with
`/cargo/`, else micropython on an mpy prefix, else the C handler. -/
def selectHandler (row : DataRow) : HandlerKind :=
  if startsWithAny RUST_PREFIXES row.symbol_name
      || pyStartsWith row.build_definition "/cargo/" then
    HandlerKind.rust
  else if startsWithAny MPY_PREFIXES row.symbol_name then
    HandlerKind.mpy
  else
    HandlerKind.c

/-- Python substring test `needle in haystack`, on character lists. -/
def containsSub (needle : List Char) : List Char → Bool
  | [] => needle.isEmpty
  | c :: t => needle.isPrefixOf (c :: t) || containsSub needle t

/-- Substring test on `String`s (`Python "needle" in s`). -/
def strContains (s needle : String) : Bool := containsSub needle.data s.data

/-- `CommonRow.add_basic_info` (`binsize/lib/row_handler_common.py`),
parameterised by the three handler-specific hooks: the handler's `language`
tag, its `_get_module_and_function` decoder and its `_is_data` predicate. -/
def add_basic_info (language : String)
    (getModuleAndFunction : String → String × String)
    (isData : DataRow → Bool) (row : DataRow) : DataRow :=
  let r1 := { row with
    language := if pyStartsWith row.symbol_name "[section" then "" else language }
  let mf := getModuleAndFunction r1.symbol_name
  let r2 := { r1 with module_name := mf.1, func_name := mf.2 }
  if strContains r2.symbol_name "str1.1" || strContains r2.symbol_name ".rodata" then
    { r2 with data_size := r2.size }
  else if isData r2 then
    { r2 with data_size := r2.size }
  else
    { r2 with logic_size := r2.size }

/-- `RustRow._is_data` (`row_handler_rust.py`): in Rust there is no data. -/
def rustIsData (_ : DataRow) : Bool := false

/-- `MicropythonRow._is_data` (`row_handler_mpy.py`). -/
def mpyIsData (row : DataRow) : Bool := pyStartsWith row.symbol_name "const_obj_"

/-- `CRow._is_data` (`row_handler_c.py`) is `is_data_cached(row.build_definition)`,
which inspects source files on disk; the cached predicate is modelled as an
oracle over the build definition. -/
def cIsData (isDataCached : String → Bool) (row : DataRow) : Bool :=
  isDataCached row.build_definition

/-- The `SourceDefinition` TypedDict (`source_definition_cache.py`). -/
structure SourceDefinition where
  definition : String
  file_hash : String
deriving DecidableEq

/-- The cache's `symbol_definitions` dict, as an insertion-ordered
association list. -/
abbrev CacheState := List (String × SourceDefinition)

/-- Python dict assignment `d[k] = v`: overwrite the existing entry in place,
else append a new one. -/
def dictSet (st : CacheState) (k : String) (v : SourceDefinition) : CacheState :=
  if st.any (fun p => p.1 = k) then
    st.map (fun p => if p.1 = k then (k, v) else p)
  else st ++ [(k, v)]

/-- Python dict lookup `d.get(k)`. -/
def dictFind (st : CacheState) (k : String) : Option SourceDefinition :=
  (st.find? (fun p => p.1 = k)).map (fun p => p.2)

/-- `SourceDefinitionCache._get_file_location_from_definition`:
`definition.split(":")[0]` — the longest colon-free leading part — joined
under the project root directory. -/
def get_file_location_from_definition (rootDir definition : String) : String :=
  rootDir ++ "/" ++ String.mk (definition.data.takeWhile (fun c => c ≠ ':'))

/-- `SourceDefinitionCache.add`.  `getFileHash` models `_get_file_hash`: the
md5 fingerprint of the file's current byte content (`""` for a missing
file). -/
def cache_add (rootDir : String) (getFileHash : String → String)
    (st : CacheState) (symbol definition : String) : CacheState :=
  let file_hash :=
    if definition = "" then ""
    else getFileHash (get_file_location_from_definition rootDir definition)
  dictSet st symbol ⟨definition, file_hash⟩

/-- `SourceDefinitionCache.get`. -/
def cache_get (st : CacheState) (symbol : String) : Option String :=
  (dictFind st symbol).map (fun d => d.definition)

/-- `SourceDefinitionCache.is_invalidated`: an absent symbol or an empty
cached definition is never invalidated; otherwise the stored fingerprint is
compared against the file's current one. -/
def cache_is_invalidated (rootDir : String) (getFileHash : String → String)
    (st : CacheState) (symbol : String) : Bool :=
  match dictFind st symbol with
  | none => false
  | some d =>
    if d.definition = "" then false
    else getFileHash (get_file_location_from_definition rootDir d.definition) ≠ d.file_hash

/-- `map_s[-10:-1]` from `_is_duplicate_rust_symbol` (`map_file_includer.py`). -/
def pySliceLast10DropLast (s : String) : String :=
  String.mk ((s.data.drop (s.data.length - 10)).dropLast)

/-- `_is_duplicate_rust_symbol` inside `get_symbols_we_miss`: a map-file
symbol of shape `_ZN...E` whose trailing hash already appears as the suffix of
some existing row's symbol name. -/
def is_duplicate_rust_symbol (row_data : List DataRow) (map_s : String) : Bool :=
  if pyStartsWith map_s "_ZN" && pyEndsWith map_s "E" then
    row_data.any (fun row => pyEndsWith row.symbol_name (pySliceLast10DropLast map_s))
  else false

/-- `get_symbols_we_miss` (`map_file_includer.py`).  The Python function
returns a `set`; it is modelled as the sub-list of the map's symbol names (in
key order) that are missing. -/
def get_symbols_we_miss (row_data : List DataRow)
    (map_symbol_sizes : List (String × Int)) (sectionName : String) : List String :=
  let our_symbols :=
    (row_data.filter (fun r => r.«section» = sectionName)).map (fun r => r.symbol_name)
  (map_symbol_sizes.map (fun p => p.1)).filter
    (fun map_s => !(our_symbols.contains map_s)
      && !(is_duplicate_rust_symbol row_data map_s))

/-- `add_map_file_info` (`map_file_includer.py`): append a fresh unclassified
`DataRow` for every missing symbol (with its size from the map file) and
return the new row list together with the total added size. -/
def add_map_file_info (row_data : List DataRow)
    (map_symbol_sizes : List (String × Int))
    (map_symbols_we_miss : List String) (sectionName : String) :
    List DataRow × Int :=
  let newRows := map_symbols_we_miss.map (fun sym =>
    { symbol_name := sym, «section» := sectionName,
      size := ((map_symbol_sizes.find? (fun p => p.1 = sym)).map (fun p => p.2)).getD 0
      : DataRow })
  (row_data ++ newRows, (newRows.map (fun r => r.size)).sum)

/-- `decrease_size_of_mysterious_section` (`map_file_includer.py`): subtract
`added_size` from the first row whose symbol name is the section's umbrella
marker `[section <name>]` (the loop breaks after it); when no row matches only
a warning is printed. -/
def decrease_size_of_mysterious_section (row_data : List DataRow)
    (sectionName : String) (added_size : Int) : List DataRow :=
  match row_data with
  | [] => []
  | r :: rest =>
    if r.symbol_name = "[section " ++ sectionName ++ "]" then
      { r with size := r.size - added_size } :: rest
    else r :: decrease_size_of_mysterious_section rest sectionName added_size

/-! ### Lemmas about the dict model used by the cache -/

theorem find?_map_overwrite (k : String) (v : SourceDefinition) (st : CacheState) :
    (st.map (fun p => if p.1 = k then (k, v) else p)).find? (fun p => p.1 = k) =
      if st.any (fun p => p.1 = k) then some (k, v) else none := by
  induction st with
  | nil => simp
  | cons p t ih =>
    by_cases hp : p.1 = k
    · simp [hp]
    · have hdec : (decide (p.1 = k)) = false := decide_eq_false hp
      simp only [List.map_cons, List.any_cons, if_neg hp, List.find?_cons, hdec,
        Bool.false_or]
      exact ih

theorem dictFind_dictSet (st : CacheState) (k : String) (v : SourceDefinition) :
    dictFind (dictSet st k v) k = some v := by
  unfold dictFind dictSet
  by_cases h : st.any (fun p => p.1 = k) = true
  · rw [if_pos h, find?_map_overwrite, if_pos h]
    rfl
  · rw [if_neg h, List.find?_append]
    have hnone : st.find? (fun p => decide (p.1 = k)) = none := by
      rw [List.find?_eq_none]
      intro p hp hcontra
      apply h
      exact List.any_eq_true.2 ⟨p, hp, hcontra⟩
    rw [hnone]
    simp

/-! ### C1: the classification size split -/

/-- C1: for every row whose `logic_size` and `data_size` are both `0`, and any
handler (any language tag, `_get_module_and_function` decoder and `_is_data`
predicate — which covers the C, Rust and micropython row handlers),
`add_basic_info` leaves `size` unchanged and sets exactly one of
`logic_size` / `data_size` to the full size, leaving the other at `0`; in
particular `logic_size + data_size = size` afterwards. -/
theorem add_basic_info_partitions_size (language : String)
    (getModuleAndFunction : String → String × String) (isData : DataRow → Bool)
    (row : DataRow) (hL : row.logic_size = 0) (hD : row.data_size = 0) :
    (add_basic_info language getModuleAndFunction isData row).size = row.size ∧
    (add_basic_info language getModuleAndFunction isData row).logic_size +
      (add_basic_info language getModuleAndFunction isData row).data_size =
      (add_basic_info language getModuleAndFunction isData row).size ∧
    (((add_basic_info language getModuleAndFunction isData row).data_size =
        (add_basic_info language getModuleAndFunction isData row).size ∧
      (add_basic_info language getModuleAndFunction isData row).logic_size = 0) ∨
     ((add_basic_info language getModuleAndFunction isData row).logic_size =
        (add_basic_info language getModuleAndFunction isData row).size ∧
      (add_basic_info language getModuleAndFunction isData row).data_size = 0)) := by
  unfold add_basic_info
  dsimp only
  split_ifs <;> simp [hL, hD]

theorem add_basic_info_partitions_size_witness :
    ({ symbol_name := "storage_set", «section» := ".flash", size := 24 } : DataRow).logic_size = 0 ∧
    ({ symbol_name := "storage_set", «section» := ".flash", size := 24 } : DataRow).data_size = 0 ∧
    ((add_basic_info "C" (fun s => ("", s)) (cIsData (fun _ => false))
        { symbol_name := "storage_set", «section» := ".flash", size := 24 }).logic_size +
      (add_basic_info "C" (fun s => ("", s)) (cIsData (fun _ => false))
        { symbol_name := "storage_set", «section» := ".flash", size := 24 }).data_size =
      (add_basic_info "C" (fun s => ("", s)) (cIsData (fun _ => false))
        { symbol_name := "storage_set", «section» := ".flash", size := 24 }).size) :=
  ⟨by decide, by decide,
    (add_basic_info_partitions_size "C" (fun s => ("", s)) (cIsData (fun _ => false))
      { symbol_name := "storage_set", «section» := ".flash", size := 24 }
      (by decide) (by decide)).2.1⟩

/-! ### C4: cache round-trip and invalidation -/

/-- C4: after `add(sym, loc)`, `get(sym)` returns `loc`; and when the
fingerprint of the file that `loc` points into subsequently changes (the hash
function at the later time disagrees with the one captured at `add` time on
that file), `is_invalidated(sym)` is true if and only if `loc` is non-empty —
an empty cached definition is never invalidated. -/
theorem cache_round_trip_and_invalidation (rootDir : String)
    (hashAtAdd hashNow : String → String) (st : CacheState) (sym loc : String)
    (hchanged : hashNow (get_file_location_from_definition rootDir loc) ≠
      hashAtAdd (get_file_location_from_definition rootDir loc)) :
    cache_get (cache_add rootDir hashAtAdd st sym loc) sym = some loc ∧
    (cache_is_invalidated rootDir hashNow (cache_add rootDir hashAtAdd st sym loc) sym
      = true ↔ loc ≠ "") := by
  have hfind :
      dictFind (cache_add rootDir hashAtAdd st sym loc) sym =
        some ⟨loc, if loc = "" then ""
          else hashAtAdd (get_file_location_from_definition rootDir loc)⟩ := by
    unfold cache_add
    exact dictFind_dictSet st sym _
  constructor
  · unfold cache_get
    rw [hfind]
    rfl
  · unfold cache_is_invalidated
    rw [hfind]
    by_cases hloc : loc = ""
    · simp [hloc]
    · simp only [hloc, if_neg hloc, ne_eq, not_false_eq_true, iff_true]
      simpa [hloc] using hchanged

theorem cache_round_trip_and_invalidation_witness :
    cache_get (cache_add "root" (fun _ => "hash-a") [] "sym" "f.c:12") "sym" = some "f.c:12" ∧
    (cache_is_invalidated "root" (fun _ => "hash-b")
        (cache_add "root" (fun _ => "hash-a") [] "sym" "f.c:12") "sym" = true ↔
      "f.c:12" ≠ "") :=
  cache_round_trip_and_invalidation "root" (fun _ => "hash-a") (fun _ => "hash-b")
    [] "sym" "f.c:12" (by decide)

/-! ### C8: handler dispatch -/

/-- C8: for every row, the Rust handler is selected exactly when the symbol
name starts with one of `RUST_PREFIXES` or the build definition starts with
`/cargo/`; otherwise the micropython handler exactly when the symbol name
starts with one of `MPY_PREFIXES`; otherwise the C handler — so every row
receives exactly one handler, with the C handler as the fallback. -/
theorem selectHandler_dispatch (row : DataRow) :
    (selectHandler row = HandlerKind.rust ↔
      ((∃ p ∈ RUST_PREFIXES, pyStartsWith row.symbol_name p = true) ∨
        pyStartsWith row.build_definition "/cargo/" = true)) ∧
    (selectHandler row = HandlerKind.mpy ↔
      (¬ ((∃ p ∈ RUST_PREFIXES, pyStartsWith row.symbol_name p = true) ∨
          pyStartsWith row.build_definition "/cargo/" = true) ∧
        (∃ p ∈ MPY_PREFIXES, pyStartsWith row.symbol_name p = true))) ∧
    (selectHandler row = HandlerKind.c ↔
      (¬ ((∃ p ∈ RUST_PREFIXES, pyStartsWith row.symbol_name p = true) ∨
          pyStartsWith row.build_definition "/cargo/" = true) ∧
        ¬ (∃ p ∈ MPY_PREFIXES, pyStartsWith row.symbol_name p = true))) := by
  simp only [selectHandler, startsWithAny]
  split_ifs with h1 h2 <;>
    simp_all [List.any_eq_true, Bool.or_eq_true]

/-! ### C9: id concatenation is not injective across sections -/

/-- C9: `DataRow.id` is the unescaped concatenation of section, `_` and the
name key, so two rows with different sections and different symbol names
(section `a` / symbol `b_c` and section `a_b` / symbol `c`) share the id
`a_b_c`, and `aggregate_rows` merges them into a single row. -/
theorem id_collision_merges_across_sections :
    ({ symbol_name := "b_c", «section» := "a", size := 1 } : DataRow).«section» ≠
      ({ symbol_name := "c", «section» := "a_b", size := 1 } : DataRow).«section» ∧
    ({ symbol_name := "b_c", «section» := "a", size := 1 } : DataRow).symbol_name ≠
      ({ symbol_name := "c", «section» := "a_b", size := 1 } : DataRow).symbol_name ∧
    ({ symbol_name := "b_c", «section» := "a", size := 1 } : DataRow).id =
      ({ symbol_name := "c", «section» := "a_b", size := 1 } : DataRow).id ∧
    aggregate_rows
      [{ symbol_name := "b_c", «section» := "a", size := 1 },
       { symbol_name := "c", «section» := "a_b", size := 1 }] =
      [{ symbol_name := "b_c", «section» := "a", size := 2, number_of_symbols := 2 }] := by
  decide

/-! ### C10: the umbrella-row correction frame -/

/-- C10: `decrease_size_of_mysterious_section` subtracts `added_size` from the
size of the first row (in list order) whose symbol name is exactly
`[section <name>]` and changes nothing else; when no row matches, the list is
returned unchanged; and there is no lower clamping — the new size is
`old - added_size`, which is negative whenever `added_size` exceeds it. -/
theorem decrease_size_frame (sectionName : String) (added : Int) :
    (∀ l : List DataRow,
      (∀ r ∈ l, r.symbol_name ≠ "[section " ++ sectionName ++ "]") →
      decrease_size_of_mysterious_section l sectionName added = l) ∧
    (∀ (pre post : List DataRow) (r : DataRow),
      (∀ x ∈ pre, x.symbol_name ≠ "[section " ++ sectionName ++ "]") →
      r.symbol_name = "[section " ++ sectionName ++ "]" →
      decrease_size_of_mysterious_section (pre ++ r :: post) sectionName added =
        pre ++ { r with size := r.size - added } :: post ∧
      (r.size < added → ({ r with size := r.size - added } : DataRow).size < 0)) := by
  constructor
  · intro l hl
    induction l with
    | nil => rfl
    | cons a t ih =>
      unfold decrease_size_of_mysterious_section
      rw [if_neg (hl a (List.mem_cons_self a t))]
      rw [ih (fun x hx => hl x (List.mem_cons_of_mem a hx))]
  · intro pre post r hpre hr
    constructor
    · induction pre with
      | nil =>
        unfold decrease_size_of_mysterious_section
        simp only [List.nil_append]
        rw [if_pos hr]
      | cons a t ih =>
        rw [List.cons_append, List.cons_append]
        unfold decrease_size_of_mysterious_section
        rw [if_neg (hpre a (List.mem_cons_self a t))]
        rw [ih (fun x hx => hpre x (List.mem_cons_of_mem a hx))]
    · intro hlt
      have hs : ({ r with size := r.size - added } : DataRow).size = r.size - added := rfl
      rw [hs]
      omega

theorem decrease_size_frame_witness :
    decrease_size_of_mysterious_section
      [{ symbol_name := "aaa", «section» := "flash", size := 4 },
       { symbol_name := "[section flash]", «section» := "flash", size := 2 }] "flash" 5 =
      [{ symbol_name := "aaa", «section» := "flash", size := 4 },
       { symbol_name := "[section flash]", «section» := "flash", size := -3 }] ∧
    ({ symbol_name := "[section flash]", «section» := "flash", size := -3 } : DataRow).size < 0 := by
  have h := (decrease_size_frame "flash" 5).2
    [{ symbol_name := "aaa", «section» := "flash", size := 4 }] []
    { symbol_name := "[section flash]", «section» := "flash", size := 2 }
    (by decide) (by decide)
  exact ⟨h.1, h.2 (by decide)⟩

/-! ### C7: map-reconciliation example -/

/-- C7: with rows `aaa` and `bbb` of size 2 in section `flash` under an
umbrella row `[section flash]` of size 14, and secondary map-source sizes
`{aaa: 1, bbb.suffix: 2, zzz: 3}`, the missing symbols are exactly
`bbb.suffix` and `zzz`; they are appended as new unclassified rows totalling
5 bytes, and the umbrella row's size drops to 9. -/
theorem map_reconciliation_example :
    get_symbols_we_miss
      [{ symbol_name := "aaa", «section» := "flash", size := 2 },
       { symbol_name := "bbb", «section» := "flash", size := 2 },
       { symbol_name := "[section flash]", «section» := "flash", size := 14 }]
      [("aaa", 1), ("bbb.suffix", 2), ("zzz", 3)] "flash" = ["bbb.suffix", "zzz"] ∧
    add_map_file_info
      [{ symbol_name := "aaa", «section» := "flash", size := 2 },
       { symbol_name := "bbb", «section» := "flash", size := 2 },
       { symbol_name := "[section flash]", «section» := "flash", size := 14 }]
      [("aaa", 1), ("bbb.suffix", 2), ("zzz", 3)] ["bbb.suffix", "zzz"] "flash" =
      ([{ symbol_name := "aaa", «section» := "flash", size := 2 },
        { symbol_name := "bbb", «section» := "flash", size := 2 },
        { symbol_name := "[section flash]", «section» := "flash", size := 14 },
        { symbol_name := "bbb.suffix", «section» := "flash", size := 2 },
        { symbol_name := "zzz", «section» := "flash", size := 3 }], 5) ∧
    decrease_size_of_mysterious_section
      [{ symbol_name := "aaa", «section» := "flash", size := 2 },
       { symbol_name := "bbb", «section» := "flash", size := 2 },
       { symbol_name := "[section flash]", «section» := "flash", size := 14 },
       { symbol_name := "bbb.suffix", «section» := "flash", size := 2 },
       { symbol_name := "zzz", «section» := "flash", size := 3 }] "flash" 5 =
      [{ symbol_name := "aaa", «section» := "flash", size := 2 },
       { symbol_name := "bbb", «section» := "flash", size := 2 },
       { symbol_name := "[section flash]", «section» := "flash", size := 9 },
       { symbol_name := "bbb.suffix", «section» := "flash", size := 2 },
       { symbol_name := "zzz", «section» := "flash", size := 3 }] := by
  refine ⟨by decide, by decide, by decide⟩

/-! ### C2 counterexample: aggregation is not literally idempotent -/

/-- C2 counterexample: aggregating two alike rows yields one row with
`number_of_symbols = 2`; aggregating again resets `number_of_symbols` to `1`,
so the output of the second aggregation differs from its input. -/
theorem aggregate_rows_not_idempotent :
    aggregate_rows
      [{ symbol_name := "x", «section» := "s", size := 1 },
       { symbol_name := "x", «section» := "s", size := 1 }] =
      [{ symbol_name := "x", «section» := "s", size := 2, number_of_symbols := 2 }] ∧
    aggregate_rows (aggregate_rows
      [{ symbol_name := "x", «section» := "s", size := 1 },
       { symbol_name := "x", «section» := "s", size := 1 }]) =
      [{ symbol_name := "x", «section» := "s", size := 2, number_of_symbols := 1 }] ∧
    aggregate_rows (aggregate_rows
      [{ symbol_name := "x", «section» := "s", size := 1 },
       { symbol_name := "x", «section» := "s", size := 1 }]) ≠
      aggregate_rows
        [{ symbol_name := "x", «section» := "s", size := 1 },
         { symbol_name := "x", «section» := "s", size := 1 }] := by
  refine ⟨by decide, by decide, by decide⟩

/-! ### C3 counterexample: aggregation output rows can depend on input order -/

/-- C3 counterexample: two rows with equal ids but different
`build_definition` fields (fields copied from the first group member) produce
different merged rows under the two orderings, so `aggregate_rows` is not
permutation-invariant as a multiset of rows. -/
theorem aggregate_rows_order_dependent :
    ({ symbol_name := "x", «section» := "s", size := 1, build_definition := "p" } : DataRow).id =
      ({ symbol_name := "x", «section» := "s", size := 2, build_definition := "q" } : DataRow).id ∧
    aggregate_rows
      [{ symbol_name := "x", «section» := "s", size := 1, build_definition := "p" },
       { symbol_name := "x", «section» := "s", size := 2, build_definition := "q" }] =
      [{ symbol_name := "x", «section» := "s", size := 3, build_definition := "p",
         number_of_symbols := 2 }] ∧
    aggregate_rows
      [{ symbol_name := "x", «section» := "s", size := 2, build_definition := "q" },
       { symbol_name := "x", «section» := "s", size := 1, build_definition := "p" }] =
      [{ symbol_name := "x", «section» := "s", size := 3, build_definition := "q",
         number_of_symbols := 2 }] ∧
    ¬ List.Perm
      (aggregate_rows
        [{ symbol_name := "x", «section» := "s", size := 1, build_definition := "p" },
         { symbol_name := "x", «section» := "s", size := 2, build_definition := "q" }])
      (aggregate_rows
        [{ symbol_name := "x", «section» := "s", size := 2, build_definition := "q" },
         { symbol_name := "x", «section» := "s", size := 1, build_definition := "p" }]) := by
  refine ⟨by decide, by decide, by decide, by decide⟩

/-! ### Aggregation theory: characterising the `defaultdict` grouping -/

/-- First-occurrence deduplication of a key list: the key iteration order of
the `defaultdict` built by `aggregate_rows` (Python dicts iterate in
insertion order). -/
def firstKeys : List String → List String
  | [] => []
  | k :: ks => k :: firstKeys (ks.filter (fun x => x ≠ k))
termination_by l => l.length
decreasing_by
  simp only [List.length_cons]
  exact Nat.lt_succ_of_le (List.length_filter_le _ _)

theorem mem_firstKeys (a : String) (ks : List String) :
    a ∈ firstKeys ks ↔ a ∈ ks := by
  induction ks using firstKeys.induct with
  | case1 => simp [firstKeys]
  | case2 k t ih =>
    rw [firstKeys]
    by_cases hak : a = k
    · subst hak; simp
    · simp only [List.mem_cons, hak, false_or]
      rw [ih]
      simp [List.mem_filter, hak]

theorem nodup_firstKeys (ks : List String) : (firstKeys ks).Nodup := by
  induction ks using firstKeys.induct with
  | case1 => simp [firstKeys]
  | case2 k t ih =>
    rw [firstKeys]
    refine List.nodup_cons.2 ⟨?_, ih⟩
    intro hmem
    rw [mem_firstKeys] at hmem
    simp [List.mem_filter] at hmem

theorem firstKeys_append_singleton (ks : List String) (k : String) :
    firstKeys (ks ++ [k]) =
      if k ∈ ks then firstKeys ks else firstKeys ks ++ [k] := by
  induction ks using firstKeys.induct with
  | case1 => simp [firstKeys]
  | case2 k0 t ih =>
    rw [List.cons_append, firstKeys]
    by_cases hk : k = k0
    · subst hk
      have hfl : (t ++ [k]).filter (fun x => x ≠ k) = t.filter (fun x => x ≠ k) := by
        rw [List.filter_append]; simp
      rw [hfl]
      simp [firstKeys]
    · have hfl : (t ++ [k]).filter (fun x => x ≠ k0) =
          t.filter (fun x => x ≠ k0) ++ [k] := by
        rw [List.filter_append]; simp [hk]
      rw [hfl, ih]
      by_cases hkt : k ∈ t
      · have h1 : k ∈ t.filter (fun x => x ≠ k0) :=
          List.mem_filter.2 ⟨hkt, by simp [hk]⟩
        simp [h1, hkt, hk, firstKeys]
      · have h1 : k ∉ t.filter (fun x => x ≠ k0) :=
          fun hc => hkt (List.mem_filter.1 hc).1
        simp [h1, hkt, hk, firstKeys]

/-- The groups the `defaultdict` loop of `aggregate_rows` ends with: keys in
first-occurrence order, each paired with the rows carrying that id, in input
order. -/
def groupsOf (l : List DataRow) : List (String × List DataRow) :=
  (firstKeys (l.map DataRow.id)).map (fun k => (k, l.filter (fun r => r.id = k)))

theorem groupsOf_nil : groupsOf [] = [] := by simp [groupsOf, firstKeys]

theorem insertRow_groupsOf (p : List DataRow) (r : DataRow) :
    insertRow (groupsOf p) r = groupsOf (p ++ [r]) := by
  have hmapapp : (p ++ [r]).map DataRow.id = p.map DataRow.id ++ [r.id] := by simp
  have hany : ((groupsOf p).any (fun q => q.1 = r.id) = true) ↔
      r.id ∈ p.map DataRow.id := by
    unfold groupsOf
    constructor
    · intro hc
      obtain ⟨q, hq, hqr⟩ := List.any_eq_true.1 hc
      obtain ⟨k, hk, rfl⟩ := List.mem_map.1 hq
      have hkid : k = r.id := of_decide_eq_true hqr
      subst hkid
      exact (mem_firstKeys _ _).1 hk
    · intro hmem
      refine List.any_eq_true.2 ⟨(r.id, p.filter (fun x => x.id = r.id)), ?_, by simp⟩
      exact List.mem_map.2 ⟨r.id, (mem_firstKeys _ _).2 hmem, rfl⟩
  by_cases hmem : r.id ∈ p.map DataRow.id
  · unfold insertRow
    rw [if_pos (hany.2 hmem)]
    unfold groupsOf
    rw [hmapapp, firstKeys_append_singleton, if_pos hmem, List.map_map]
    apply List.map_congr_left
    intro k hk
    simp only [Function.comp_apply]
    by_cases hkr : k = r.id
    · subst hkr
      rw [if_pos rfl, List.filter_append]
      simp
    · rw [if_neg (by simpa using hkr), List.filter_append]
      have hrk : ¬ r.id = k := fun hc => hkr hc.symm
      have : [r].filter (fun x => x.id = k) = [] := by simp [hrk]
      rw [this, List.append_nil]
  · unfold insertRow
    rw [if_neg (fun hc => hmem (hany.1 hc))]
    unfold groupsOf
    rw [hmapapp, firstKeys_append_singleton, if_neg hmem, List.map_append]
    congr 1
    · apply List.map_congr_left
      intro k hk
      have hkr : k ≠ r.id := fun hc => hmem (hc ▸ (mem_firstKeys _ _).1 hk)
      rw [List.filter_append]
      have hrk : ¬ r.id = k := fun hc => hkr hc.symm
      have : [r].filter (fun x => x.id = k) = [] := by simp [hrk]
      rw [this, List.append_nil]
    · simp only [List.map_cons, List.map_nil, List.filter_append]
      have h1 : p.filter (fun x => x.id = r.id) = [] := by
        rw [List.filter_eq_nil_iff]
        intro a ha hdec
        exact hmem (List.mem_map.2 ⟨a, ha, of_decide_eq_true hdec⟩)
      rw [h1]
      simp

theorem foldl_insertRow_eq (l p : List DataRow) :
    l.foldl insertRow (groupsOf p) = groupsOf (p ++ l) := by
  induction l generalizing p with
  | nil => simp
  | cons r t ih =>
    rw [List.foldl_cons, insertRow_groupsOf, ih]
    simp

theorem aggregate_rows_eq_groups (l : List DataRow) :
    aggregate_rows l = (groupsOf l).map (fun q => mkNewRow q.2) := by
  unfold aggregate_rows
  rw [← groupsOf_nil, foldl_insertRow_eq]
  simp

theorem mkNewRow_size (g : List DataRow) :
    (mkNewRow g).size = (g.map (fun x => x.size)).sum := by
  cases g <;> simp [mkNewRow]

/-- Splitting a mapped sum along a filter and its complement. -/
theorem sum_map_filter_split (f : DataRow → Int) (p : DataRow → Bool)
    (t : List DataRow) :
    ((t.filter p).map f).sum + ((t.filter (fun x => !(p x))).map f).sum =
      (t.map f).sum := by
  induction t with
  | nil => simp
  | cons a t ih =>
    by_cases hp : p a = true
    · simp [List.filter_cons, hp]
      omega
    · have hp' : p a = false := by revert hp; cases p a <;> simp
      simp [List.filter_cons, hp']
      omega

/-- The per-group sums of any numeric field add up to the sum over the whole
input: the groups partition the input rows. -/
theorem sum_over_groups (f : DataRow → Int) (l : List DataRow) :
    ((groupsOf l).map (fun q => ((q.2.map f).sum))).sum = (l.map f).sum := by
  suffices H : ∀ n (l : List DataRow), l.length ≤ n →
      ((groupsOf l).map (fun q => ((q.2.map f).sum))).sum = (l.map f).sum from
    H l.length l le_rfl
  intro n
  induction n with
  | zero =>
    intro l hl
    have : l = [] := List.length_eq_zero.1 (Nat.le_zero.1 hl)
    subst this
    simp [groupsOf_nil]
  | succ n ih =>
    intro l hl
    match l with
    | [] => simp [groupsOf_nil]
    | r :: t =>
      have hkeys : firstKeys ((r :: t).map DataRow.id) =
          r.id :: firstKeys ((t.filter (fun s => s.id ≠ r.id)).map DataRow.id) := by
        rw [List.map_cons, firstKeys]
        congr 1
        rw [List.filter_map]
        rfl
      have hgroups : groupsOf (r :: t) =
          (r.id, r :: t.filter (fun s => s.id = r.id)) ::
            groupsOf (t.filter (fun s => s.id ≠ r.id)) := by
        unfold groupsOf
        rw [hkeys, List.map_cons]
        congr 1
        · have : (r :: t).filter (fun s => s.id = r.id) =
              r :: t.filter (fun s => s.id = r.id) := by
            rw [List.filter_cons]
            simp
          rw [this]
        · apply List.map_congr_left
          intro k hk
          have hkr : k ≠ r.id := by
            intro hc
            subst hc
            have := (mem_firstKeys _ _).1 hk
            obtain ⟨s, hs, hsid⟩ := List.mem_map.1 this
            have := (List.mem_filter.1 hs).2
            rw [hsid] at this
            simp at this
          have hrk : ¬ r.id = k := fun hc => hkr hc.symm
          have hhead : (r :: t).filter (fun s => s.id = k) =
              t.filter (fun s => s.id = k) := by
            rw [List.filter_cons]
            simp [hrk]
          rw [hhead]
          have : t.filter (fun s => s.id = k) =
              (t.filter (fun s => s.id ≠ r.id)).filter (fun s => s.id = k) := by
            rw [List.filter_filter]
            apply List.filter_congr
            intro a _
            by_cases hak : a.id = k
            · have har : a.id ≠ r.id := fun hc => hkr (hak.symm.trans hc)
              simp [hak, har, hkr]
            · simp [hak]
          rw [this]
      rw [hgroups]
      simp only [List.map_cons, List.sum_cons]
      have hlen : (t.filter (fun s => s.id ≠ r.id)).length ≤ n := by
        have h1 := List.length_filter_le (fun s => decide (s.id ≠ r.id)) t
        have h2 : t.length ≤ n := by
          simpa using Nat.le_of_succ_le_succ hl
        omega
      rw [ih _ hlen]
      have hsplit := sum_map_filter_split f (fun s => s.id = r.id) t
      have hnot : t.filter (fun x => !(decide (x.id = r.id))) =
          t.filter (fun x => x.id ≠ r.id) := by
        apply List.filter_congr
        intro a _
        rw [decide_not]
      rw [hnot] at hsplit
      omega

theorem map_id_mkNewRow (r : DataRow) (rs : List DataRow) :
    (mkNewRow (r :: rs)).id = r.id := by
  simp [mkNewRow, DataRow.id]

theorem group_mkNewRow_id (l : List DataRow) (k : String)
    (hk : k ∈ firstKeys (l.map DataRow.id)) :
    (mkNewRow (l.filter (fun r => r.id = k))).id = k := by
  have hk' : k ∈ l.map DataRow.id := (mem_firstKeys _ _).1 hk
  obtain ⟨s, hs, rfl⟩ := List.mem_map.1 hk'
  cases hfil : l.filter (fun r => r.id = s.id) with
  | nil =>
    exfalso
    have : s ∈ l.filter (fun r => r.id = s.id) := List.mem_filter.2 ⟨hs, by simp⟩
    rw [hfil] at this
    simp at this
  | cons a t =>
    have ha : a ∈ l.filter (fun r => r.id = s.id) := by
      rw [hfil]; exact List.mem_cons_self a t
    have haid : a.id = s.id := of_decide_eq_true (List.mem_filter.1 ha).2
    rw [map_id_mkNewRow, haid]

theorem map_id_aggregate (l : List DataRow) :
    (aggregate_rows l).map DataRow.id = firstKeys (l.map DataRow.id) := by
  rw [aggregate_rows_eq_groups]
  unfold groupsOf
  rw [List.map_map, List.map_map]
  conv_rhs => rw [← List.map_id (firstKeys (l.map DataRow.id))]
  apply List.map_congr_left
  intro k hk
  simp only [Function.comp_apply, id_eq]
  exact group_mkNewRow_id l k hk

theorem groupsOf_of_nodup_ids (l : List DataRow)
    (h : (l.map DataRow.id).Nodup) :
    groupsOf l = l.map (fun r => (r.id, [r])) := by
  induction l with
  | nil => exact groupsOf_nil
  | cons r t ih =>
    have hcons : ((r :: t).map DataRow.id) = r.id :: t.map DataRow.id := by simp
    rw [hcons] at h
    have hid : r.id ∉ t.map DataRow.id := (List.nodup_cons.1 h).1
    unfold groupsOf
    rw [List.map_cons, firstKeys]
    have hfilt : (t.map DataRow.id).filter (fun x => x ≠ r.id) =
        t.map DataRow.id := by
      apply List.filter_eq_self.2
      intro a ha
      simp only [decide_eq_true_eq]
      exact fun hc => hid (hc ▸ ha)
    rw [hfilt, List.map_cons]
    congr 1
    · have h1 : t.filter (fun x => x.id = r.id) = [] := by
        rw [List.filter_eq_nil_iff]
        intro a ha hdec
        exact hid (List.mem_map.2 ⟨a, ha, of_decide_eq_true hdec⟩)
      rw [List.filter_cons]
      simp [h1]
    · have hstep : ∀ k ∈ firstKeys (t.map DataRow.id),
          ((r :: t).filter (fun x => x.id = k)) = t.filter (fun x => x.id = k) := by
        intro k hk
        have hkr : k ≠ r.id := fun hc => hid (hc ▸ (mem_firstKeys _ _).1 hk)
        have hrk : ¬ r.id = k := fun hc => hkr hc.symm
        rw [List.filter_cons]
        simp [hrk]
      calc (firstKeys (t.map DataRow.id)).map
              (fun k => (k, (r :: t).filter (fun x => x.id = k)))
          = (firstKeys (t.map DataRow.id)).map
              (fun k => (k, t.filter (fun x => x.id = k))) := by
            apply List.map_congr_left
            intro k hk
            rw [hstep k hk]
        _ = groupsOf t := rfl
        _ = t.map (fun r => (r.id, [r])) := ih (List.nodup_cons.1 h).2

theorem mkNewRow_singleton (r : DataRow) :
    mkNewRow [r] = { r with number_of_symbols := 1 } := by
  cases r
  simp [mkNewRow]

/-! ### C2: aggregation idempotence up to the symbol count -/

/-- C2 (amended): re-aggregating an aggregated list reproduces each row
except that `number_of_symbols` is reset to `1` (every group is then a
singleton, so `len(alike_rows)` is `1`); the number of groups is stable, and
the total of the `size` field is preserved by aggregation. -/
theorem aggregate_rows_idempotent_up_to_symbol_count (l : List DataRow) :
    aggregate_rows (aggregate_rows l) =
      (aggregate_rows l).map (fun r => { r with number_of_symbols := 1 }) ∧
    (aggregate_rows (aggregate_rows l)).length = (aggregate_rows l).length ∧
    ((aggregate_rows l).map (fun r => r.size)).sum =
      (l.map (fun r => r.size)).sum := by
  have hnodup : ((aggregate_rows l).map DataRow.id).Nodup := by
    rw [map_id_aggregate]
    exact nodup_firstKeys _
  have h1 : aggregate_rows (aggregate_rows l) =
      (aggregate_rows l).map (fun r => { r with number_of_symbols := 1 }) := by
    rw [aggregate_rows_eq_groups (aggregate_rows l),
      groupsOf_of_nodup_ids _ hnodup, List.map_map]
    apply List.map_congr_left
    intro r _
    simp only [Function.comp_apply]
    exact mkNewRow_singleton r
  refine ⟨h1, by rw [h1, List.length_map], ?_⟩
  rw [aggregate_rows_eq_groups, List.map_map]
  have hptwise : (groupsOf l).map ((fun r => r.size) ∘ (fun q => mkNewRow q.2)) =
      (groupsOf l).map (fun q => ((q.2.map (fun x => x.size)).sum)) := by
    apply List.map_congr_left
    intro q _
    simp only [Function.comp_apply]
    exact mkNewRow_size q.2
  rw [hptwise, sum_over_groups]

/-! ### C3: id fields and permutation invariance of aggregation -/

/-- The fields of a row that aggregation copies from the first group member
(everything except the summed sizes and the symbol count). -/
def sameSkeleton (r s : DataRow) : Prop :=
  r.symbol_name = s.symbol_name ∧ r.«section» = s.«section» ∧
  r.language = s.language ∧ r.func_name = s.func_name ∧
  r.module_name = s.module_name ∧ r.build_definition = s.build_definition ∧
  r.source_definition = s.source_definition

instance (r s : DataRow) : Decidable (sameSkeleton r s) := by
  unfold sameSkeleton
  infer_instance

theorem mkNewRow_congr_of_perm (a b : DataRow) (t t' : List DataRow)
    (hperm : List.Perm (a :: t) (b :: t')) (hskel : sameSkeleton a b) :
    mkNewRow (a :: t) = mkNewRow (b :: t') := by
  have hsz := (hperm.map (fun x => x.size)).sum_eq
  have hlg := (hperm.map (fun x => x.logic_size)).sum_eq
  have hdt := (hperm.map (fun x => x.data_size)).sum_eq
  have hlen := hperm.length_eq
  obtain ⟨h1, h2, h3, h4, h5, h6, h7⟩ := hskel
  apply DataRow.ext <;> simp_all [mkNewRow]

/-- C3 (amended): `DataRow.id` is a function of `section`, `module_name`,
`func_name` and `symbol_name` only — never of `size` — and aggregation is
permutation-invariant as a multiset of rows whenever rows sharing an id agree
on all fields that aggregation copies (which holds by construction when ids
are derived consistently, but can fail for hand-built rows; see the
counterexample). -/
theorem id_fields_and_aggregation_permutation_invariance :
    (∀ r s : DataRow, r.«section» = s.«section» → r.module_name = s.module_name →
      r.func_name = s.func_name → r.symbol_name = s.symbol_name → r.id = s.id) ∧
    (∀ l l' : List DataRow, List.Perm l l' →
      (∀ r ∈ l, ∀ s ∈ l, r.id = s.id → sameSkeleton r s) →
      List.Perm (aggregate_rows l) (aggregate_rows l')) := by
  constructor
  · intro r s h1 h2 h3 h4
    unfold DataRow.id
    rw [h1, h2, h3, h4]
  · intro l l' hperm hcompat
    rw [aggregate_rows_eq_groups, aggregate_rows_eq_groups]
    unfold groupsOf
    rw [List.map_map, List.map_map]
    have hkeysperm : List.Perm (firstKeys (l.map DataRow.id))
        (firstKeys (l'.map DataRow.id)) := by
      apply (List.perm_ext_iff_of_nodup (nodup_firstKeys _) (nodup_firstKeys _)).2
      intro a
      rw [mem_firstKeys, mem_firstKeys]
      exact (hperm.map DataRow.id).mem_iff
    have hval : ∀ k : String,
        mkNewRow (l.filter (fun r => r.id = k)) =
          mkNewRow (l'.filter (fun r => r.id = k)) := by
      intro k
      have hgp : List.Perm (l.filter (fun r => r.id = k))
          (l'.filter (fun r => r.id = k)) := hperm.filter _
      cases hfg : l.filter (fun r => r.id = k) with
      | nil =>
        rw [hfg] at hgp
        have hnil : l'.filter (fun r => r.id = k) = [] := (hgp.symm).eq_nil
        rw [hnil]
      | cons a t =>
        cases hfg' : l'.filter (fun r => r.id = k) with
        | nil =>
          exfalso
          rw [hfg, hfg'] at hgp
          exact absurd hgp.eq_nil (by simp)
        | cons b t' =>
          rw [hfg, hfg'] at hgp
          apply mkNewRow_congr_of_perm a b t t' hgp
          have ha : a ∈ l.filter (fun r => r.id = k) := by
            rw [hfg]; exact List.mem_cons_self a t
          have hbmem : b ∈ l.filter (fun r => r.id = k) := by
            rw [hfg]
            exact hgp.symm.subset (List.mem_cons_self b t')
          have hal : a ∈ l := (List.mem_filter.1 ha).1
          have hbl : b ∈ l := (List.mem_filter.1 hbmem).1
          have haid : a.id = k := of_decide_eq_true (List.mem_filter.1 ha).2
          have hbid : b.id = k := of_decide_eq_true (List.mem_filter.1 hbmem).2
          exact hcompat a hal b hbl (haid.trans hbid.symm)
    have hfuneq : (firstKeys (l.map DataRow.id)).map
            ((fun q => mkNewRow q.2) ∘ (fun k => (k, l.filter (fun r => r.id = k)))) =
        (firstKeys (l.map DataRow.id)).map
            ((fun q => mkNewRow q.2) ∘ (fun k => (k, l'.filter (fun r => r.id = k)))) := by
      apply List.map_congr_left
      intro k _
      simp only [Function.comp_apply]
      exact hval k
    rw [hfuneq]
    exact hkeysperm.map _

theorem id_fields_and_aggregation_permutation_invariance_witness :
    List.Perm
      (aggregate_rows
        [{ symbol_name := "u", «section» := "s", size := 1 },
         { symbol_name := "v", «section» := "s", size := 2 }])
      (aggregate_rows
        [{ symbol_name := "v", «section» := "s", size := 2 },
         { symbol_name := "u", «section» := "s", size := 1 }]) :=
  id_fields_and_aggregation_permutation_invariance.2
    [{ symbol_name := "u", «section» := "s", size := 1 },
     { symbol_name := "v", «section» := "s", size := 2 }]
    [{ symbol_name := "v", «section» := "s", size := 2 },
     { symbol_name := "u", «section» := "s", size := 1 }]
    (List.Perm.swap _ _ _) (by decide)

/-! ### Character-list utilities for the symbol decoders -/

/-- The character list of a string literal. -/
def chars (s : String) : List Char := s.data

/-- Python `s.split(sep)` for a single-character separator: keeps empty
parts, and `"".split(sep) == [""]`. -/
def pySplitChar (sep : Char) : List Char → List (List Char)
  | [] => [[]]
  | c :: t =>
    if c = sep then [] :: pySplitChar sep t
    else
      match pySplitChar sep t with
      | [] => [[c]]
      | g :: gs => (c :: g) :: gs

/-- Python `str.replace` for a non-empty pattern: every occurrence, scanning
left to right. -/
def pyReplace : List Char → List Char → List Char → List Char
  | [], _, _ => []
  | c :: t, old, new =>
    if h : old ≠ [] ∧ old.isPrefixOf (c :: t) then
      new ++ pyReplace ((c :: t).drop old.length) old new
    else c :: pyReplace t old new
termination_by s _ _ => s.length
decreasing_by
  · have hlen : 0 < old.length := List.length_pos.2 h.1
    simp only [List.length_drop, List.length_cons]
    omega
  · simp [Nat.lt_succ_self]

/-! ### The micropython symbol decoder (`row_handler_mpy.py`) -/

/-- The prefix-stripping loop at the top of
`MicropythonRow._get_module_and_function`: each prefix of `MPY_PREFIXES` that
matches is stripped in turn. -/
def mpyStripPrefixes (symbol : List Char) : List Char :=
  MPY_PREFIXES.foldl
    (fun s p => if (chars p).isPrefixOf s then s.drop (chars p).length else s)
    symbol

/-- The exception list guarding the trailing-number strip. -/
def mpy_number_exceptions : List String :=
  ["blake_hash_writer_32", "_migrate_from_version_01", "sha256d_32",
   "groestl512d_32", "blake256d_32", "keccak_32", "ripemd160_32"]

/-- `re.sub(r"_\d+$", "", s)`: remove the maximal run of trailing digits
together with the underscore right before it, when both are present. -/
def stripNumericSuffix (s : List Char) : List Char :=
  let revDigits := s.reverse.takeWhile (fun c => c.isDigit)
  if revDigits ≠ [] ∧ (s.reverse.drop revDigits.length).head? = some '_' then
    s.take (s.length - revDigits.length - 1)
  else s

/-- Python regex `\w`: ASCII letters, digits and underscore (symbol names in
this tool are ASCII). -/
def isWordChar (c : Char) : Bool := c.isAlphanum || c = '_'

/-- Matching `\w+_gt(_\d*)?` — the tail of the strange-suffix pattern — at
the start of `ys`, with `re`'s greedy backtracking: the word run is shrunk
from its maximal length until `_gt` follows, and the optional `_\d*` group
then extends the match greedily.  Returns the matched length. -/
def matchCoreLt (ys : List Char) : Option Nat :=
  let run := ys.takeWhile isWordChar
  ((List.range' 1 run.length).reverse.find?
      (fun k => (chars "_gt").isPrefixOf (ys.drop k))).map
    (fun k =>
      match ys.drop (k + 3) with
      | '_' :: restA => k + 4 + (restA.takeWhile (fun c => c.isDigit)).length
      | _ => k + 3)

/-- Matching the full pattern `(_)?_lt_\w+_gt(_\d*)?` at the start of `xs`:
the optional leading underscore is tried first (greedy), falling back to the
bare `_lt_` alternative. -/
def matchStrangeAt (xs : List Char) : Option Nat :=
  match (if (chars "__lt_").isPrefixOf xs
      then (matchCoreLt (xs.drop 5)).map (fun m => 5 + m) else none) with
  | some n => some n
  | none =>
    if (chars "_lt_").isPrefixOf xs
    then (matchCoreLt (xs.drop 4)).map (fun m => 4 + m) else none

/-- The `re.sub` scan: find the leftmost match, delete it, continue after its
end.  `fuel` bounds the number of scan steps; every step consumes at least
one character (a match is at least four characters long), so `length + 1`
fuel is never exhausted. -/
def removeStrangeGo : Nat → List Char → List Char
  | 0, xs => xs
  | fuel + 1, xs =>
    match xs with
    | [] => []
    | c :: t =>
      match matchStrangeAt (c :: t) with
      | some n => removeStrangeGo fuel ((c :: t).drop n)
      | none => c :: removeStrangeGo fuel t

/-- `remove_strange_suffixes`:
`re.sub(r"(_)?_lt_\w+_gt(_\d*)?", "", symbol_name)`. -/
def remove_strange_suffixes (s : List Char) : List Char :=
  removeStrangeGo (s.length + 1) s

/-- `ObjectDefinition`: the per-module syntax index of functions and classes,
a recursive tree derived from the module's AST. -/
inductive ObjectDefinition where
  | mk (name : List Char) (functions : List ObjectDefinition)
      (classes : List ObjectDefinition) (start_line : Nat) (end_line : Nat)

def ObjectDefinition.name : ObjectDefinition → List Char
  | .mk n _ _ _ _ => n

def ObjectDefinition.functions : ObjectDefinition → List ObjectDefinition
  | .mk _ fs _ _ _ => fs

def ObjectDefinition.classes : ObjectDefinition → List ObjectDefinition
  | .mk _ _ cs _ _ => cs

/-- `ObjectDefinition.func_names`. -/
def ObjectDefinition.func_names (o : ObjectDefinition) : List (List Char) :=
  o.functions.map ObjectDefinition.name

/-- `ObjectDefinition.class_names`. -/
def ObjectDefinition.class_names (o : ObjectDefinition) : List (List Char) :=
  o.classes.map ObjectDefinition.name

/-- `ObjectDefinition.resolve_symbol`, with explicit fuel in place of the
Python recursion: every recursive call is on the strictly shorter rest of the
symbol whenever the matched class name is non-empty (the only case in which
the Python recursion terminates at all), so `length + 1` fuel reproduces the
Python behaviour on every input on which Python terminates. -/
def resolveSymbolGo : Nat → ObjectDefinition → List Char → List Char
  | 0, _, _ => []
  | fuel + 1, o, symbol_name =>
    if symbol_name ∈ o.func_names then symbol_name ++ chars "()"
    else
      let symbol_split := pySplitChar '_' symbol_name
      let candidates := (List.range' 1 symbol_split.length).reverse.map
        (fun i => (List.intercalate ['_'] (symbol_split.take i),
                   List.intercalate ['_'] (symbol_split.drop i)))
      match candidates.find? (fun q => q.1 ∈ o.class_names) with
      | some (class_try, rest) =>
        match o.classes.find? (fun c => c.name = class_try) with
        | some cObj =>
          let r := resolveSymbolGo fuel cObj rest
          if r = [] then class_try else class_try ++ '.' :: r
        | none => []
      | none =>
        match candidates.find? (fun q => q.1 ∈ o.func_names) with
        | some (func_try, _) => func_try ++ chars "()"
        | none => []

def resolve_symbol (o : ObjectDefinition) (symbol_name : List Char) : List Char :=
  resolveSymbolGo (symbol_name.length + 1) o symbol_name

/-- `resolve_module`, parameterised by the existence check
`(settings.ROOT_DIR / path).exists()` over root-relative paths. -/
def resolve_module (pathExists : List Char → Bool) (module_name : List Char) :
    List Char × Bool :=
  let module_name_py := module_name ++ chars ".py"
  let module_parts :=
    if (chars "__init__.py").isSuffixOf module_name_py then
      pySplitChar '_'
          (module_name_py.take (module_name_py.length - (chars "__init__.py").length))
        ++ [chars "__init__.py"]
    else pySplitChar '_' module_name_py
  let fp0 := module_parts.foldl
    (fun fp part =>
      if part = [] then fp
      else
        let possible := if fp.getLast? = some '_' then fp ++ part
          else fp ++ '/' :: part
        if pathExists possible then possible else possible ++ ['_'])
    (chars "src")
  let fp1 := (fp0.reverse.dropWhile (fun c => c = '_')).reverse
  let fp2 :=
    if !(pathExists fp1) && containsSub (chars "apps/monero/") fp1
        && containsSub (chars "serialize/messages") fp1 then
      pyReplace fp1 (chars "serialize/messages_") (chars "serialize_messages/")
    else fp1
  (fp2, pathExists fp2)

/-- `resolve_function_name`; `moduleDefs` models
`get_module_object_definitions`, the cached AST-derived per-module index (a
missing or unparsable module yields an index with no functions or
classes). -/
def resolve_function_name (moduleDefs : List Char → ObjectDefinition)
    (func_name module_name : List Char) : List Char :=
  let fn := remove_strange_suffixes func_name
  if fn = [] then []
  else resolve_symbol (moduleDefs module_name) fn

/-- `MicropythonRow._get_module_and_function`. -/
def mpy_get_module_and_function (pathExists : List Char → Bool)
    (moduleDefs : List Char → ObjectDefinition) (symbol : List Char) :
    List Char × List Char :=
  let s1 := mpyStripPrefixes symbol
  let s2 :=
    if mpy_number_exceptions.any (fun ex => (chars ex).isSuffixOf s1) then s1
    else stripNumericSuffix s1
  if (chars "__lt_module_gt_").isSuffixOf s2 then
    let module_path := s2.take (s2.length - (chars "__lt_module_gt_").length)
    let resolved := resolve_module pathExists module_path
    (if resolved.2 then resolved.1 else chars INVALID_FILE_PREFIX ++ resolved.1, [])
  else
    let split_symbol := pySplitChar '_' s2
    let tries := (List.range' 1 split_symbol.length).reverse.map
      (fun i => (List.intercalate ['_'] (split_symbol.take i),
                 List.intercalate ['_'] (split_symbol.drop i)))
    match tries.find? (fun q => (resolve_module pathExists q.1).2) with
    | some (module_part, func_part) =>
      let resolved := resolve_module pathExists module_part
      (resolved.1, resolve_function_name moduleDefs func_part resolved.1)
    | none =>
      (chars INVALID_FILE_PREFIX ++ List.intercalate ['_'] split_symbol.dropLast,
       (split_symbol.getLast?).getD [])

/-! ### C5: the scripting-handler decoding example -/

/-- The example source tree for the scripting-decoder claim: the project root
contains `src`, `src/apps` and the file `src/apps/base.py`. -/
def exampleTreeExists (p : List Char) : Bool :=
  p = chars "src" || p = chars "src/apps" || p = chars "src/apps/base.py"

/-- The syntax index of the example tree: `src/apps/base.py` has one
top-level function, `get_features`. -/
def exampleModuleDefs (p : List Char) : ObjectDefinition :=
  if p = chars "src/apps/base.py" then
    ObjectDefinition.mk (chars "src/apps/base.py")
      [ObjectDefinition.mk (chars "get_features") [] [] 1 2] [] 0 10
  else ObjectDefinition.mk p [] [] 0 999

/-- C5 counterexample: on the symbol `fun_data_apps_base_get_features` over a
source tree containing `apps/base.py` with a top-level `get_features`, the
decoder resolves the function to `get_features()` as claimed, but the module
to `src/apps/base.py` — the configured source root `src/` is part of the
result — so the module is not `apps/base.py` (the claim's `apps/base.<ext>`
with the source extension `py`). -/
theorem mpy_decoding_example_counterexample :
    mpy_get_module_and_function exampleTreeExists exampleModuleDefs
        (chars "fun_data_apps_base_get_features") =
      (chars "src/apps/base.py", chars "get_features()") ∧
    chars "src/apps/base.py" ≠ chars "apps/base.py" := by
  refine ⟨by decide, by decide⟩

/-- C5 (amended): the micropython decoder resolves the symbol
`fun_data_apps_base_get_features` to the module `src/apps/base.py` (the
source-root-prefixed path with the `.py` extension) and the function
`get_features()`. -/
theorem mpy_decoding_example :
    mpy_get_module_and_function exampleTreeExists exampleModuleDefs
        (chars "fun_data_apps_base_get_features") =
      (chars "src/apps/base.py", chars "get_features()") := by
  decide

/-! ### Substring search and split for the Rust decoder -/

/-- The index of the first occurrence of `sep` in `xs` (Python `str.find`). -/
def findSub (sep : List Char) : List Char → Option Nat
  | [] => if sep.isEmpty then some 0 else none
  | c :: t =>
    if sep.isPrefixOf (c :: t) then some 0
    else (findSub sep t).map (fun i => i + 1)

theorem findSub_some_ne_nil {sep s : List Char} {i : Nat} (hsep : sep ≠ [])
    (h : findSub sep s = some i) : s ≠ [] := by
  intro hs
  subst hs
  cases sep with
  | nil => exact hsep rfl
  | cons a as => simp [findSub] at h

/-- Python `s.split(sep)` for a non-empty separator: split at each
non-overlapping occurrence, scanning left to right. -/
def splitOnSub (sep : List Char) (s : List Char) : List (List Char) :=
  if hsep : sep = [] then [s]
  else
    match hfind : findSub sep s with
    | none => [s]
    | some i => s.take i :: splitOnSub sep (s.drop (i + sep.length))
termination_by s.length
decreasing_by
  have hne : s ≠ [] := findSub_some_ne_nil hsep hfind
  have h1 : 0 < sep.length := List.length_pos.2 hsep
  have h2 : 0 < s.length := List.length_pos.2 hne
  simp only [List.length_drop]
  omega

/-- Python `s.split()` with no separator: split on whitespace runs, dropping
empty parts. -/
def pySplitWs (s : List Char) : List (List Char) :=
  match s with
  | [] => []
  | c :: t =>
    if c.isWhitespace then pySplitWs t
    else (c :: t.takeWhile (fun x => !x.isWhitespace)) ::
      pySplitWs (t.dropWhile (fun x => !x.isWhitespace))
termination_by s.length
decreasing_by
  · simp [Nat.lt_succ_self]
  · have := (List.dropWhile_sublist (l := t) (fun x => !x.isWhitespace)).length_le
    simp only [List.length_cons]
    omega

/-- `get_real_symbol_from_alias` (`row_handler_rust.py`): take the function
name after the last `>::`, strip the leading `_<` and the trailing
`>::func`, split the remainder on ` as `, reduce each part to its last
whitespace-separated token (dropping `&mut` and the like), and pick the left
token when it is a valid qualified symbol (contains `::`), otherwise the
right one; return `chosen ++ "::" ++ func`. -/
def get_real_symbol_from_alias (symbol_name : List Char) : List Char :=
  let func_name := (splitOnSub (chars ">::") symbol_name).getLastD []
  let s1 := symbol_name.drop 2
  let s2 := s1.take (s1.length - (func_name.length + 3))
  let possibilities := (splitOnSub (chars " as ") s2).map
    (fun part => (pySplitWs part).getLastD [])
  let chosen :=
    if possibilities.length = 1 ∨
        containsSub (chars "::") (possibilities.headD []) = true then
      possibilities.headD []
    else possibilities.getD 1 []
  chosen ++ chars "::" ++ func_name

theorem isPrefixOf_append_self (l r : List Char) : l.isPrefixOf (l ++ r) = true := by
  simp

theorem findSub_append (c0 : Char) (sep' xs ys : List Char)
    (hx : c0 ∉ xs) (hy : (c0 :: sep').isPrefixOf ys = true) :
    findSub (c0 :: sep') (xs ++ ys) = some xs.length := by
  induction xs with
  | nil =>
    cases ys with
    | nil => simp at hy
    | cons y t =>
      simp only [List.nil_append, findSub]
      rw [if_pos hy]
      rfl
  | cons a xs ih =>
    have hca : c0 ≠ a := fun hc => hx (hc ▸ List.mem_cons_self a xs)
    have hne : ¬ (c0 :: sep').isPrefixOf (a :: (xs ++ ys)) = true := by
      simp only [List.isPrefixOf_iff_prefix]
      intro hc
      exact hca (List.cons_prefix_cons.1 hc).1
    simp only [List.cons_append, findSub, List.append_eq]
    rw [if_neg hne, ih (fun hm => hx (List.mem_cons_of_mem a hm))]
    rfl

theorem findSub_none_of_not_mem (c0 : Char) (sep' : List Char) (xs : List Char)
    (hx : c0 ∉ xs) : findSub (c0 :: sep') xs = none := by
  induction xs with
  | nil => simp [findSub]
  | cons a t ih =>
    have hca : c0 ≠ a := fun hc => hx (hc ▸ List.mem_cons_self a t)
    have hne : ¬ (c0 :: sep').isPrefixOf (a :: t) = true := by
      simp only [List.isPrefixOf_iff_prefix]
      intro hc
      exact hca (List.cons_prefix_cons.1 hc).1
    simp only [findSub]
    rw [if_neg hne, ih (fun hm => hx (List.mem_cons_of_mem a hm))]
    rfl

theorem splitOnSub_of_none {sep s : List Char} (hsep : sep ≠ [])
    (h : findSub sep s = none) : splitOnSub sep s = [s] := by
  rw [splitOnSub, dif_neg hsep]
  split
  · rfl
  · next i heq =>
    rw [h] at heq
    exact Option.noConfusion heq

theorem splitOnSub_of_some {sep s : List Char} {i : Nat} (hsep : sep ≠ [])
    (h : findSub sep s = some i) :
    splitOnSub sep s = s.take i :: splitOnSub sep (s.drop (i + sep.length)) := by
  rw [splitOnSub, dif_neg hsep]
  split
  · next heq =>
    rw [h] at heq
    exact Option.noConfusion heq
  · next j heq =>
    rw [h] at heq
    injection heq with hij
    subst hij
    rfl

/-- Splitting `xs ++ sep ++ ys` on `sep` when `sep`'s first character occurs
in neither `xs` nor `ys` yields exactly `[xs, ys]`. -/
theorem splitOnSub_append_sep (c0 : Char) (sep' xs ys : List Char)
    (hx : c0 ∉ xs) (hy : c0 ∉ ys) :
    splitOnSub (c0 :: sep') (xs ++ (c0 :: sep') ++ ys) = [xs, ys] := by
  rw [List.append_assoc]
  have hfind : findSub (c0 :: sep') (xs ++ ((c0 :: sep') ++ ys)) = some xs.length :=
    findSub_append c0 sep' xs _ hx (isPrefixOf_append_self _ _)
  rw [splitOnSub_of_some (by simp) hfind, List.take_left]
  have hdrop : (xs ++ ((c0 :: sep') ++ ys)).drop (xs.length + (c0 :: sep').length) = ys := by
    rw [← List.append_assoc, List.drop_left']
    simp
  rw [hdrop, splitOnSub_of_none (by simp) (findSub_none_of_not_mem c0 sep' ys hy)]

theorem containsSub_eq_false_of_not_mem (c0 : Char) (sep' xs : List Char)
    (h : c0 ∉ xs) : containsSub (c0 :: sep') xs = false := by
  induction xs with
  | nil => rfl
  | cons a t ih =>
    have hca : c0 ≠ a := fun hc => h (hc ▸ List.mem_cons_self a t)
    have hne : (c0 :: sep').isPrefixOf (a :: t) = false := by
      rw [Bool.eq_false_iff]
      intro hc
      rw [List.isPrefixOf_iff_prefix] at hc
      exact hca (List.cons_prefix_cons.1 hc).1
    rw [containsSub, hne, ih (fun hm => h (List.mem_cons_of_mem a hm))]
    rfl

theorem pySplitWs_no_ws (s : List Char) (hne : s ≠ [])
    (h : ∀ c ∈ s, c.isWhitespace = false) : pySplitWs s = [s] := by
  cases s with
  | nil => exact absurd rfl hne
  | cons c t =>
    rw [pySplitWs]
    have hc : c.isWhitespace = false := h c (List.mem_cons_self c t)
    rw [if_neg (by simp [hc])]
    have htake : t.takeWhile (fun x => !x.isWhitespace) = t :=
      List.takeWhile_eq_self_iff.2
        (fun x hx => by simp [h x (List.mem_cons_of_mem c hx)])
    have hdrop : t.dropWhile (fun x => !x.isWhitespace) = [] :=
      List.dropWhile_eq_nil_iff.2
        (fun x hx => by simp [h x (List.mem_cons_of_mem c hx)])
    rw [htake, hdrop, pySplitWs]

theorem pySplitWs_amp_mut (T : List Char) (hne : T ≠ [])
    (h : ∀ c ∈ T, c.isWhitespace = false) :
    pySplitWs (chars "&mut " ++ T) = [chars "&mut", T] := by
  have hshape : chars "&mut " ++ T = '&' :: 'm' :: 'u' :: 't' :: ' ' :: T := rfl
  rw [hshape, pySplitWs, if_neg (by decide)]
  have htake : ('m' :: 'u' :: 't' :: ' ' :: T).takeWhile (fun x => !x.isWhitespace) =
      ['m', 'u', 't'] := by
    rw [List.takeWhile_cons_of_pos (by decide), List.takeWhile_cons_of_pos (by decide),
      List.takeWhile_cons_of_pos (by decide), List.takeWhile_cons_of_neg (by decide)]
  have hdrop : ('m' :: 'u' :: 't' :: ' ' :: T).dropWhile (fun x => !x.isWhitespace) =
      ' ' :: T := by
    rw [List.dropWhile_cons_of_pos (by decide), List.dropWhile_cons_of_pos (by decide),
      List.dropWhile_cons_of_pos (by decide), List.dropWhile_cons_of_neg (by decide)]
  rw [htake, hdrop, pySplitWs, if_pos (by decide), pySplitWs_no_ws T hne h]
  rfl

/-- The pattern `as ` cannot start at the head of `T ++ ' ' :: rest` for a
non-empty, whitespace-free `T` other than `as` itself. -/
theorem as_pattern_not_prefix (T rest : List Char) (hne : T ≠ [])
    (h : ∀ c ∈ T, c.isWhitespace = false) (hTas : T ≠ chars "as") :
    ¬ (chars "as ") <+: (T ++ (' ' :: rest)) := by
  intro hc
  cases T with
  | nil => exact hne rfl
  | cons t1 T2 =>
    rw [List.cons_append] at hc
    obtain ⟨h1, hc2⟩ := List.cons_prefix_cons.1 hc
    cases T2 with
    | nil =>
      rw [List.nil_append] at hc2
      obtain ⟨h2, _⟩ := List.cons_prefix_cons.1 hc2
      exact absurd h2 (by decide)
    | cons t2 T3 =>
      rw [List.cons_append] at hc2
      obtain ⟨h2, hc3⟩ := List.cons_prefix_cons.1 hc2
      cases T3 with
      | nil =>
        apply hTas
        rw [← h1, ← h2]
        rfl
      | cons t3 T4 =>
        rw [List.cons_append] at hc3
        obtain ⟨h3, _⟩ := List.cons_prefix_cons.1 hc3
        have hw := h t3 (by simp)
        rw [← h3] at hw
        exact absurd hw (by decide)

/-- Splitting off the function name and the `_<`/`>::` frame: for `>`-free
`M` and `f`, the decoder reduces `_<M>::f` to the ` as ` analysis of `M`. -/
theorem alias_decode_reduces (M f : List Char) (hM : '>' ∉ M) (hf : '>' ∉ f) :
    get_real_symbol_from_alias (chars "_<" ++ M ++ chars ">::" ++ f) =
      (if ((splitOnSub (chars " as ") M).map
            (fun part => (pySplitWs part).getLastD [])).length = 1 ∨
          containsSub (chars "::")
            (((splitOnSub (chars " as ") M).map
              (fun part => (pySplitWs part).getLastD [])).headD []) = true then
        ((splitOnSub (chars " as ") M).map
          (fun part => (pySplitWs part).getLastD [])).headD []
      else
        ((splitOnSub (chars " as ") M).map
          (fun part => (pySplitWs part).getLastD [])).getD 1 []) ++
        chars "::" ++ f := by
  have hxs : '>' ∉ chars "_<" ++ M := by
    intro hm
    rcases List.mem_append.1 hm with hm1 | hm2
    · simp [chars] at hm1
    · exact hM hm2
  have hsep : chars ">::" = '>' :: chars "::" := rfl
  have hsplit : splitOnSub (chars ">::") (chars "_<" ++ M ++ chars ">::" ++ f) =
      [chars "_<" ++ M, f] := by
    rw [hsep]
    exact splitOnSub_append_sep '>' (chars "::") (chars "_<" ++ M) f hxs hf
  have hdrop2 : (chars "_<" ++ M ++ chars ">::" ++ f).drop 2 =
      M ++ chars ">::" ++ f := by
    have : chars "_<" ++ M ++ chars ">::" ++ f =
        chars "_<" ++ (M ++ chars ">::" ++ f) := by
      simp [List.append_assoc]
    rw [this, List.drop_left' (by rfl)]
  have hlen : (M ++ chars ">::" ++ f).length - (f.length + 3) = M.length := by
    simp only [List.length_append]
    have : (chars ">::").length = 3 := rfl
    omega
  have htake : (M ++ chars ">::" ++ f).take
      ((M ++ chars ">::" ++ f).length - (f.length + 3)) = M := by
    rw [hlen]
    have : M ++ chars ">::" ++ f = M ++ (chars ">::" ++ f) := by
      simp [List.append_assoc]
    rw [this, List.take_left]
  unfold get_real_symbol_from_alias
  simp only []
  rw [hsplit]
  have hgl : List.getLastD [chars "_<" ++ M, f] [] = f := rfl
  rw [hgl, hdrop2, htake]

/-- The left branch of the alias special case: a qualified (`::`-containing),
space-free left-hand type is chosen. -/
theorem alias_left_branch (A B f : List Char)
    (hAne : A ≠ []) (hBne : B ≠ [])
    (hA : ∀ c ∈ A, c.isWhitespace = false ∧ c ≠ '>')
    (hB : ∀ c ∈ B, c.isWhitespace = false ∧ c ≠ '>')
    (hf : '>' ∉ f)
    (hq : containsSub (chars "::") A = true) :
    get_real_symbol_from_alias
        (chars "_<" ++ (A ++ chars " as " ++ B) ++ chars ">::" ++ f) =
      A ++ chars "::" ++ f := by
  have hAsp : ' ' ∉ A := fun hm => by simpa using (hA ' ' hm).1
  have hBsp : ' ' ∉ B := fun hm => by simpa using (hB ' ' hm).1
  have hMgt : '>' ∉ A ++ chars " as " ++ B := by
    intro hm
    rcases List.mem_append.1 hm with hm1 | hm2
    · rcases List.mem_append.1 hm1 with hm3 | hm4
      · exact (hA '>' hm3).2 rfl
      · simp [chars] at hm4
    · exact (hB '>' hm2).2 rfl
  have hsep : chars " as " = ' ' :: chars "as " := rfl
  have hsplitas : splitOnSub (chars " as ") (A ++ chars " as " ++ B) = [A, B] := by
    rw [hsep]
    exact splitOnSub_append_sep ' ' (chars "as ") A B hAsp hBsp
  rw [alias_decode_reduces _ _ hMgt hf, hsplitas]
  simp only [List.map_cons, List.map_nil,
    pySplitWs_no_ws A hAne (fun c hc => (hA c hc).1),
    pySplitWs_no_ws B hBne (fun c hc => (hB c hc).1)]
  have hglA : List.getLastD [A] ([] : List Char) = A := rfl
  have hglB : List.getLastD [B] ([] : List Char) = B := rfl
  rw [hglA, hglB]
  rw [if_pos (Or.inr (show containsSub (chars "::")
    (List.headD [A, B] []) = true from hq))]
  rfl

/-- The right branch of the alias special case: a generic reference left-hand
type (`&mut T` with `T` a bare name) falls back to the right-hand trait. -/
theorem alias_right_branch (T B f : List Char)
    (hTne : T ≠ []) (hBne : B ≠ [])
    (hT : ∀ c ∈ T, c.isWhitespace = false ∧ c ≠ '>' ∧ c ≠ ':')
    (hTas : T ≠ chars "as")
    (hB : ∀ c ∈ B, c.isWhitespace = false ∧ c ≠ '>')
    (hf : '>' ∉ f) :
    get_real_symbol_from_alias
        (chars "_<" ++ ((chars "&mut " ++ T) ++ chars " as " ++ B) ++
          chars ">::" ++ f) =
      B ++ chars "::" ++ f := by
  have hTsp : ' ' ∉ T := fun hm => by simpa using (hT ' ' hm).1
  have hBsp : ' ' ∉ B := fun hm => by simpa using (hB ' ' hm).1
  have hMgt : '>' ∉ (chars "&mut " ++ T) ++ chars " as " ++ B := by
    intro hm
    rcases List.mem_append.1 hm with hm1 | hm2
    · rcases List.mem_append.1 hm1 with hm3 | hm4
      · rcases List.mem_append.1 hm3 with hm5 | hm6
        · simp [chars] at hm5
        · exact (hT '>' hm6).2.1 rfl
      · simp [chars] at hm4
    · exact (hB '>' hm2).2 rfl
  -- the first ` as ` occurrence is right after `&mut T`
  have hshape : (chars "&mut " ++ T) ++ chars " as " ++ B =
      '&' :: 'm' :: 'u' :: 't' :: ' ' :: (T ++ (chars " as " ++ B)) := by
    simp [List.append_assoc]
    rfl
  have htail : T ++ (chars " as " ++ B) = T ++ (' ' :: (chars "as " ++ B)) := rfl
  have hnp : (chars " as ").isPrefixOf (' ' :: (T ++ (chars " as " ++ B))) = false := by
    rw [Bool.eq_false_iff]
    intro hc
    rw [List.isPrefixOf_iff_prefix] at hc
    obtain ⟨_, hc2⟩ := List.cons_prefix_cons.1 hc
    rw [htail] at hc2
    exact as_pattern_not_prefix T (chars "as " ++ B) hTne
      (fun c hc => (hT c hc).1) hTas hc2
  have hinner : findSub (chars " as ") (T ++ (chars " as " ++ B)) = some T.length := by
    have : chars " as " = ' ' :: chars "as " := rfl
    rw [this]
    exact findSub_append ' ' (chars "as ") T _ hTsp (isPrefixOf_append_self _ _)
  have hconsstep : ∀ (c : Char) (rest : List Char), c ≠ ' ' →
      (chars " as ").isPrefixOf (c :: rest) = false := by
    intro c rest hc
    rw [Bool.eq_false_iff]
    intro hp
    rw [List.isPrefixOf_iff_prefix] at hp
    exact hc ((List.cons_prefix_cons.1 hp).1).symm
  have hfind : findSub (chars " as ")
      ((chars "&mut " ++ T) ++ chars " as " ++ B) = some (T.length + 5) := by
    rw [hshape]
    rw [findSub, if_neg (by simp [hconsstep '&' _ (by decide)])]
    rw [findSub, if_neg (by simp [hconsstep 'm' _ (by decide)])]
    rw [findSub, if_neg (by simp [hconsstep 'u' _ (by decide)])]
    rw [findSub, if_neg (by simp [hconsstep 't' _ (by decide)])]
    rw [findSub, if_neg (by simp [hnp])]
    rw [hinner]
    rfl
  have hsplitas : splitOnSub (chars " as ")
      ((chars "&mut " ++ T) ++ chars " as " ++ B) = [chars "&mut " ++ T, B] := by
    rw [splitOnSub_of_some (by decide) hfind]
    have hlenA : (chars "&mut " ++ T).length = T.length + 5 := by
      simp [chars]
    congr 1
    · have hassoc : (chars "&mut " ++ T) ++ chars " as " ++ B =
          (chars "&mut " ++ T) ++ (chars " as " ++ B) := by
        simp [List.append_assoc]
      rw [hassoc, List.take_left' hlenA]
    · have hassoc : (chars "&mut " ++ T) ++ chars " as " ++ B =
          ((chars "&mut " ++ T) ++ chars " as ") ++ B := by
        simp [List.append_assoc]
      have hlenAs : ((chars "&mut " ++ T) ++ chars " as ").length =
          T.length + 5 + (chars " as ").length := by
        simp [chars]
      have hBnone : findSub (chars " as ") B = none :=
        findSub_none_of_not_mem ' ' (chars "as ") B hBsp
      rw [hassoc, List.drop_left' hlenAs]
      exact splitOnSub_of_none (by decide) hBnone
  rw [alias_decode_reduces _ _ hMgt hf, hsplitas]
  simp only [List.map_cons, List.map_nil,
    pySplitWs_amp_mut T hTne (fun c hc => (hT c hc).1),
    pySplitWs_no_ws B hBne (fun c hc => (hB c hc).1), List.getLastD, List.headD]
  have hcont : containsSub (chars "::") T = false := by
    have : chars "::" = ':' :: chars ":" := rfl
    rw [this]
    exact containsSub_eq_false_of_not_mem ':' (chars ":") T
      (fun hm => (hT ':' hm).2.2 rfl)
  rw [if_neg (by simp [hcont])]
  rfl

/-! ### C6: the Rust alias decoding -/

/-- C6: for a mangled alias symbol of the shape `_<A as B>::f` (with the
frame characters `>` absent from the type names and the function name, and
the type names free of internal whitespace), the Rust decoder resolves the
function identity to `A::f` when `A` is a concrete (qualified, `::`-bearing)
type, and to `B::f` when `A` is a generic reference type `&mut T` (a bare
generic name `T`, not itself containing `::`). -/
theorem rust_alias_decoding (A B f T : List Char)
    (hBne : B ≠ []) (hB : ∀ c ∈ B, c.isWhitespace = false ∧ c ≠ '>')
    (hf : '>' ∉ f) :
    (containsSub (chars "::") A = true → A ≠ [] →
      (∀ c ∈ A, c.isWhitespace = false ∧ c ≠ '>') →
      get_real_symbol_from_alias
          (chars "_<" ++ (A ++ chars " as " ++ B) ++ chars ">::" ++ f) =
        A ++ chars "::" ++ f) ∧
    (A = chars "&mut " ++ T → T ≠ [] → T ≠ chars "as" →
      (∀ c ∈ T, c.isWhitespace = false ∧ c ≠ '>' ∧ c ≠ ':') →
      get_real_symbol_from_alias
          (chars "_<" ++ (A ++ chars " as " ++ B) ++ chars ">::" ++ f) =
        B ++ chars "::" ++ f) := by
  constructor
  · intro hq hAne hA
    exact alias_left_branch A B f hAne hBne hA hB hf hq
  · intro hAeq hTne hTas hT
    subst hAeq
    exact alias_right_branch T B f hTne hBne hT hTas hB hf

theorem rust_alias_decoding_witness :
    get_real_symbol_from_alias
        (chars "_<" ++ (chars "app::Scr" ++ chars " as " ++ chars "core::Tr") ++
          chars ">::" ++ chars "call") =
      chars "app::Scr" ++ chars "::" ++ chars "call" ∧
    get_real_symbol_from_alias
        (chars "_<" ++ ((chars "&mut " ++ chars "X") ++ chars " as " ++
          chars "core::Tr") ++ chars ">::" ++ chars "call") =
      (chars "core::Tr") ++ chars "::" ++ chars "call" :=
  ⟨(rust_alias_decoding (chars "app::Scr") (chars "core::Tr") (chars "call")
      (chars "X") (by decide) (by decide) (by decide)).1
      (by decide) (by decide) (by decide),
   (rust_alias_decoding (chars "&mut " ++ chars "X") (chars "core::Tr")
      (chars "call") (chars "X") (by decide) (by decide) (by decide)).2
      rfl (by decide) (by decide) (by decide)⟩

end Binsize
